import Mathlib

/-!
Verification of the reaction-network core: pathway balancing, interdependency
detection, and thermodynamic entry management.

Shallow embedding of the repository's core modules:

* `rxn_network/pathways/balanced.py` — `BalancedPathway.__init__`,
  `BalancedPathway.balance`, `BalancedPathway.contains_interdependent_rxns`;
* `rxn_network/entries/entry_set.py` — `GibbsEntrySet.get_subset_in_chemsys`,
  `GibbsEntrySet.filter_by_stability`, `GibbsEntrySet.get_min_entry_by_formula`;
* `rxn_network/entries/utils.py` — `initialize_entry`.

Python values are modelled with executable Lean structures; fallible calls
return `Except PyError`.  Helpers of this repository that are referenced by the
code above but whose source is not available (`limited_powerset` from
`rxn_network.utils`, `BasicReaction.balance` from `rxn_network.reactions.basic`,
`expand_pd` from `rxn_network.thermo.utils`) are modelled from the
specification; each such definition carries a doc comment saying exactly what
is modelled.
-/

deriving instance DecidableEq for Except

namespace RxnNetwork

/-- Exceptions a modelled Python call can raise. -/
inductive PyError where
  | nameError (name : String)
  | indexError
  | keyError
  | attributeError (name : String)
  | valueError (msg : String)
deriving DecidableEq, Repr

/-- A chemical composition: a finite association of element symbols with
natural-number atom counts (pymatgen `Composition`, restricted to the integral
amounts used throughout these tests).  Concrete compositions are written with
their element list sorted by symbol and without duplicate or zero entries, so
that list equality coincides with pymatgen's amount-map equality. -/
structure Comp where
  elems : List (String × ℕ)
deriving DecidableEq, Repr

/-- Number of atoms of element `el` in the composition. -/
def Comp.count (c : Comp) (el : String) : ℕ :=
  (c.elems.filter (fun p => p.1 = el)).foldl (fun a p => a + p.2) 0

/-- The element symbols appearing in the composition
(`[sp.symbol for sp in composition.keys()]`). -/
def Comp.elements (c : Comp) : List String :=
  (c.elems.map Prod.fst).dedup

/-- Lexicographic strict order on strings through their character values (a
fixed total order on element symbols, used only to canonicalise reduced
compositions). -/
def strDataLt : List Char → List Char → Bool
  | [], [] => false
  | [], _ :: _ => true
  | _ :: _, [] => false
  | a :: as, b :: bs =>
      if a.val < b.val then true else if b.val < a.val then false else strDataLt as bs

def strLe (a b : String) : Bool :=
  !(strDataLt b.data a.data)

/-- The reduced form of a composition: amounts divided by their gcd, keyed in
a fixed sorted element order.  Two compositions have equal pymatgen
`reduced_formula`/`reduced_composition` exactly when this value agrees. -/
def Comp.reduced (c : Comp) : List (String × ℕ) :=
  let l := c.elems.filter (fun p => p.2 ≠ 0)
  let g := l.foldl (fun a p => Nat.gcd a p.2) 0
  (List.insertionSort (fun a b => strLe a.1 b.1) l).map (fun p => (p.1, p.2 / g))

/-- A reaction as consumed by `contains_interdependent_rxns`: its reactant and
product composition collections (the only reaction attributes that method
reads, besides `compositions`). -/
structure Rxn where
  reactants : List Comp
  products : List Comp
deriving DecidableEq, Repr

/-- `rxn.compositions`: all compositions appearing in the reaction. -/
def Rxn.compositions (r : Rxn) : List Comp :=
  r.reactants ++ r.products

/-- Intersection of two composition collections (`a & b` on Python sets),
keeping `a`'s order. -/
def interComp (a b : List Comp) : List Comp :=
  a.filter (fun c => c ∈ b)

/-- A Python object as it can occur inside the set `other_comp` or be tested
for membership against it: either a `Composition`, or a (frozen) set of
compositions.  CPython's `set.__contains__`, given a `set` argument, converts
it to a `frozenset` and compares it against the elements, so the membership
test in `contains_interdependent_rxns` is modelled with this sum type. -/
inductive PyObj where
  | comp (c : Comp)
  | fset (s : List Comp)
deriving DecidableEq, Repr

/-- Python `==` between such objects: compositions compare as compositions,
frozensets compare as sets, and a frozenset never equals a composition. -/
def pyObjEq : PyObj → PyObj → Bool
  | .comp a, .comp b => a = b
  | .fset a, .fset b => a.all (fun c => c ∈ b) && b.all (fun c => c ∈ a)
  | _, _ => false

/-- Python `x in s` over the modelled objects. -/
def pyMem (x : PyObj) (l : List PyObj) : Bool :=
  l.any (pyObjEq x)

/-! ## The modelled stoichiometric balancer -/

/-- All coefficient vectors of length `n` with entries in `1..bound`. -/
def coeffLists (bound : ℕ) : ℕ → List (List ℕ)
  | 0 => [[]]
  | n + 1 => (coeffLists bound n).flatMap (fun t => (List.range bound).map (fun c => (c + 1) :: t))

/-- Element symbols spanned by a collection of compositions. -/
def elemsOfComps (cs : List Comp) : List String :=
  (cs.flatMap Comp.elements).dedup

/-- Total count of element `el` over compositions `cs` weighted by the
stoichiometric coefficients `ks`. -/
def weightedCount (cs : List Comp) (ks : List ℕ) (el : String) : ℕ :=
  (cs.zip ks).foldl (fun a p => a + p.1.count el * p.2) 0

/-- Elemental mass balance of the candidate coefficients: for every element,
atoms consumed across reactants equal atoms produced across products. -/
def balancedCoeffs (rs ps : List Comp) (kr kp : List ℕ) : Bool :=
  (elemsOfComps (rs ++ ps)).all (fun el => weightedCount rs kr el == weightedCount ps kp el)

/-- A balanced reaction as returned by the balancer: compositions together
with the positive stoichiometric coefficients found for them. -/
structure BasicRxn where
  reactants : List Comp
  products : List Comp
  rCoeffs : List ℕ
  pCoeffs : List ℕ
deriving DecidableEq, Repr

/-- Elemental mass balance of a returned reaction, with its carried
coefficients. -/
def BasicRxn.isMassBalanced (r : BasicRxn) : Bool :=
  balancedCoeffs r.reactants r.products r.rCoeffs r.pCoeffs

/-- Search for a positive coefficient assignment establishing elemental mass
balance. -/
def searchBalance (bound : ℕ) (rs ps : List Comp) : Option (List ℕ × List ℕ) :=
  ((coeffLists bound rs.length).flatMap
      (fun kr => (coeffLists bound ps.length).map (fun kp => (kr, kp)))).find?
    (fun q => balancedCoeffs rs ps q.1 q.2)

/-- Modelled from the spec: `BasicReaction.balance` (module
`rxn_network.reactions.basic`, not under `src/`).  Section 4.3 step 5 of the
spec: "balance the remainder via stoichiometric mass-balance solving.  If that
balance succeeds, return the combined reaction; if balancing fails, the
combined reaction is omitted".  The solver is modelled as an exact search for
positive integer stoichiometric coefficients (bounded by 4, enough for every
concrete instance considered in this file) satisfying elemental mass balance.
A `some` result always satisfies the balance equations; `none` models both an
unbalanced result (`r.balanced == False`) and a raised exception — the caller
treats the two identically, leaving its `combined_rxn` unchanged. -/
def basicReactionBalance (rs ps : List Comp) : Option BasicRxn :=
  if rs.isEmpty || ps.isEmpty then none
  else (searchBalance 4 rs ps).map (fun q => ⟨rs, ps, q.1, q.2⟩)

/-- Soundness of the modelled balancer: whatever it returns is elementally
mass-balanced. -/
theorem basicReactionBalance_sound {rs ps : List Comp} {r : BasicRxn}
    (h : basicReactionBalance rs ps = some r) : r.isMassBalanced = true := by
  unfold basicReactionBalance at h
  split at h
  · exact absurd h (by simp)
  · unfold searchBalance at h
    rcases Option.map_eq_some'.1 h with ⟨q, hq, rfl⟩
    have hb := List.find?_some hq
    simpa [BasicRxn.isMassBalanced] using hb

/-! ## `BalancedPathway.contains_interdependent_rxns` -/

/-- Modelled from the spec: `limited_powerset` (module `rxn_network.utils`, not
under `src/`).  Section 4.3 step 2 of the spec: "Enumerate all non-empty
subsets ('combos') of the reaction set, sizes 2..N (size-1 subsets are
skipped …)" — together with the caller's explicit `size == 1` skip this means
the helper yields all non-empty subsets of sizes `1..n`, ascending by size;
within a size, combinations keep the input's relative order. -/
def limitedPowerset {α : Type} (l : List α) (n : ℕ) : List (List α) :=
  (List.range n).flatMap (fun k => List.sublistsLen (k + 1) l)

/-- `rxn.reactants`, deduplicated, minus the precursor set (`set(rxn.reactants)
- precursors`), and likewise for products. -/
def uniqueMinus (l : List Comp) (precursors : List Comp) : List Comp :=
  l.dedup.filter (fun c => c ∉ precursors)

/-- The skip filter at the top of the combo loop:
`any(set(rxn.reactants).issubset(precursors) for rxn in combo) or size == 1`. -/
def comboSkipped (precursors : List Comp) (combo : List Rxn) : Bool :=
  combo.any (fun r => r.reactants.all (fun c => c ∈ precursors)) || combo.length == 1

/-- `other_comp = {c for rxn in (rxns - set(combo)) for c in rxn.compositions}`:
the compositions used by reactions outside the combo (a set of `Composition`
objects; list duplication is immaterial, only membership is tested). -/
def otherComps (rxns combo : List Rxn) : List PyObj :=
  ((rxns.filter (fun r => r ∉ combo)).flatMap Rxn.compositions).map PyObj.comp

/-- The inner double loop's net effect on `overlap[i]`: there is some `j ≠ i`
with `overlapping_phases = unique_reactants[i] & unique_products[j]` non-empty
and `overlapping_phases not in other_comp`.  Note the source tests membership
of the *set* `overlapping_phases` itself (as a frozenset) in `other_comp`, not
disjointness of the two sets. -/
def overlapRow (uR uP : List (List Comp)) (other : List PyObj) (i : ℕ) : Bool :=
  (List.range uR.length).any (fun j =>
    decide (i ≠ j) &&
      (let ovl := interComp (uR.getD i []) (uP.getD j [])
       !ovl.isEmpty && !pyMem (PyObj.fset ovl) other))

/-- Whether a combo passes the skip filter and has every member marked in
`overlap` (the `if all(overlap)` condition). -/
def comboDetected (rxns : List Rxn) (precursors : List Comp) (combo : List Rxn) : Bool :=
  !comboSkipped precursors combo &&
    (List.range combo.length).all
      (overlapRow (combo.map (fun r => uniqueMinus r.reactants precursors))
        (combo.map (fun r => uniqueMinus r.products precursors)) (otherComps rxns combo))

/-- The combined-reaction attempt for a detected combo: union the reactants
and products across the combo, cancel the species shared between the two
sides, and balance the remainder with `BasicReaction.balance`. -/
def comboCombinedBalance (combo : List Rxn) : Option BasicRxn :=
  let combinedReactants := (combo.flatMap Rxn.reactants).dedup
  let combinedProducts := (combo.flatMap Rxn.products).dedup
  let shared := interComp combinedReactants combinedProducts
  basicReactionBalance (combinedReactants.filter (fun c => c ∉ shared))
    (combinedProducts.filter (fun c => c ∉ shared))

/-- One iteration of the combo loop, transforming the pair
`(interdependent, combined_rxn)`. -/
def interdependentStep (rxns : List Rxn) (precursors : List Comp)
    (acc : Bool × Option BasicRxn) (combo : List Rxn) : Bool × Option BasicRxn :=
  if comboDetected rxns precursors combo then
    match comboCombinedBalance combo with
    | some r => (true, some r)
    | none => (true, acc.2)
  else acc

/-- Embeds `BalancedPathway.contains_interdependent_rxns`.  `set(self.reactions)`
is modelled as deduplication preserving first occurrence (its iteration order
is immaterial to every property proved here); `set(precursors)` is used only
through membership and is left as given. -/
def containsInterdependentRxns (reactions : List Rxn) (precursors : List Comp) :
    Bool × Option BasicRxn :=
  if reactions.dedup.length == 1 then (false, none)
  else (limitedPowerset reactions.dedup reactions.dedup.length).foldl
    (interdependentStep reactions.dedup precursors) (false, none)

/-! ## `BalancedPathway.__init__` and `BalancedPathway.balance` -/

/-- The state carried by a constructed `BalancedPathway` object, as set up by
`BalancedPathway.__init__` (costs default to `None` upstream; only the fields
the claims mention are modelled). -/
structure BalancedPathwayObj where
  reactions : List Rxn
  coefficients : List ℚ
  costs : List ℚ
  balanced : Bool
deriving Repr

/-- Embeds `BalancedPathway.__init__`: stores reactions, coefficients and
costs, and sets `self.balanced` from the optional `balanced` argument,
defaulting to `False` when it is `None` (not supplied). -/
def BalancedPathwayInit (reactions : List Rxn) (coefficients : List ℚ)
    (costs : List ℚ) (balanced : Option Bool) : BalancedPathwayObj :=
  { reactions := reactions, coefficients := coefficients, costs := costs,
    balanced := balanced.getD false }

/-- Embeds `BalancedPathway.balance`.  The body's first statement is
`comp_pseudo_inverse = np.linalg.pinv(comp_matrix).T`, and `comp_matrix` is
neither a parameter, nor a local, nor a module-level name (a method of the
class is not visible as a bare name inside a classmethod body); the later
statements likewise reference the undefined names `net_coeffs`,
`multiplicities`, `reactions` and `costs`.  Evaluating the first statement's
argument therefore raises `NameError: name 'comp_matrix' is not defined` on
every call, before anything else happens. -/
def BalancedPathwayBalance (pathwaySets : List (List Rxn)) (netReaction : Rxn)
    (tol : ℚ) : Except PyError BalancedPathwayObj :=
  .error (.nameError "comp_matrix")

/-! ## Behaviour of the combo loop -/

/-- An undetected combo leaves the loop state unchanged. -/
theorem interdependentStep_undetected {rxns : List Rxn} {ps : List Comp}
    {acc : Bool × Option BasicRxn} {c : List Rxn}
    (h : comboDetected rxns ps c = false) : interdependentStep rxns ps acc c = acc := by
  unfold interdependentStep
  simp [h]

/-- A size-1 combo is never detected (the `size == 1` skip). -/
theorem comboDetected_len_one {rxns : List Rxn} {ps : List Comp} {c : List Rxn}
    (h : c.length = 1) : comboDetected rxns ps c = false := by
  unfold comboDetected comboSkipped
  simp [h]

/-- Once `interdependent` is `True` it stays `True` for the rest of the loop. -/
theorem foldl_interdependentStep_keep_true (rxns : List Rxn) (ps : List Comp) :
    ∀ (l : List (List Rxn)) (acc : Bool × Option BasicRxn), acc.1 = true →
      (l.foldl (interdependentStep rxns ps) acc).1 = true := by
  intro l
  induction l with
  | nil => intro acc h; simpa using h
  | cons c t ih =>
    intro acc h
    simp only [List.foldl_cons]
    apply ih
    unfold interdependentStep
    split
    · split <;> rfl
    · exact h

/-- If some combo of the enumeration is detected, the final `interdependent`
flag is `True`. -/
theorem foldl_interdependentStep_fst_true (rxns : List Rxn) (ps : List Comp) :
    ∀ (l : List (List Rxn)) (acc : Bool × Option BasicRxn) (c : List Rxn),
      c ∈ l → comboDetected rxns ps c = true →
      (l.foldl (interdependentStep rxns ps) acc).1 = true := by
  intro l
  induction l with
  | nil => intro acc c hc; exact absurd hc (List.not_mem_nil c)
  | cons c₀ t ih =>
    intro acc c hc hdet
    simp only [List.foldl_cons]
    rcases List.mem_cons.1 hc with rfl | hmem
    · apply foldl_interdependentStep_keep_true
      unfold interdependentStep
      rw [hdet]
      simp only [if_true]
      split <;> rfl
    · exact ih _ c hmem hdet

/-- If every detected combo fails to balance, the final `combined_rxn` stays
`None`. -/
theorem foldl_interdependentStep_snd_none (rxns : List Rxn) (ps : List Comp) :
    ∀ (l : List (List Rxn)) (acc : Bool × Option BasicRxn), acc.2 = none →
      (∀ c ∈ l, comboDetected rxns ps c = true → comboCombinedBalance c = none) →
      (l.foldl (interdependentStep rxns ps) acc).2 = none := by
  intro l
  induction l with
  | nil => intro acc h _; simpa using h
  | cons c₀ t ih =>
    intro acc h hall
    simp only [List.foldl_cons]
    apply ih
    · unfold interdependentStep
      split
      · rename_i hdet
        rw [hall c₀ (List.mem_cons_self c₀ t) hdet]
        exact h
      · exact h
    · intro c hc; exact hall c (List.mem_cons_of_mem _ hc)

/-- Every `combined_rxn` the loop can produce came out of the balancer, hence
is mass-balanced. -/
theorem foldl_interdependentStep_snd_balanced (rxns : List Rxn) (ps : List Comp) :
    ∀ (l : List (List Rxn)) (acc : Bool × Option BasicRxn),
      (∀ r, acc.2 = some r → r.isMassBalanced = true) →
      ∀ r, (l.foldl (interdependentStep rxns ps) acc).2 = some r → r.isMassBalanced = true := by
  intro l
  induction l with
  | nil => intro acc h; simpa using h
  | cons c₀ t ih =>
    intro acc h
    simp only [List.foldl_cons]
    apply ih
    unfold interdependentStep
    split
    · rename_i hdet
      rcases hb : comboCombinedBalance c₀ with _ | r₀
      · simpa [hb] using h
      · intro r hr
        simp only [hb] at hr
        obtain rfl := Option.some.inj hr
        unfold comboCombinedBalance at hb
        exact basicReactionBalance_sound hb
    · exact h

/-- The `(interdependent, combined_rxn)` invariant of the loop: the combined
reaction is only ever set together with the flag. -/
theorem foldl_interdependentStep_flag_inv (rxns : List Rxn) (ps : List Comp) :
    ∀ (l : List (List Rxn)) (acc : Bool × Option BasicRxn), (acc.1 = false → acc.2 = none) →
      (l.foldl (interdependentStep rxns ps) acc).1 = false →
      (l.foldl (interdependentStep rxns ps) acc).2 = none := by
  intro l
  induction l with
  | nil => intro acc h; simpa using h
  | cons c₀ t ih =>
    intro acc h
    simp only [List.foldl_cons]
    apply ih
    unfold interdependentStep
    split
    · split
      · intro h'; cases h'
      · intro h'; cases h'
    · exact h

/-- Any combined reaction returned by `contains_interdependent_rxns` is
elementally mass-balanced. -/
theorem containsInterdependentRxns_snd_balanced (reactions : List Rxn) (ps : List Comp)
    (r : BasicRxn) (h : (containsInterdependentRxns reactions ps).2 = some r) :
    r.isMassBalanced = true := by
  unfold containsInterdependentRxns at h
  split at h
  · simp at h
  · exact foldl_interdependentStep_snd_balanced _ _ _ _ (by intro r' h'; cases h') r h

/-! ## Concrete compositions and reactions used as test inputs

Elements are abstract symbols; every concrete reaction below is elementally
balanceable with positive coefficients (e.g. `A2B2 -> 2 AB`,
`AB + ABC -> A2B2 + C`), as the data model requires of `Reaction` objects. -/

def cAB : Comp := ⟨[("A", 1), ("B", 1)]⟩

def cA2B2 : Comp := ⟨[("A", 2), ("B", 2)]⟩

def cABC : Comp := ⟨[("A", 1), ("B", 1), ("C", 1)]⟩

def cC : Comp := ⟨[("C", 1)]⟩

def cA2B2C2 : Comp := ⟨[("A", 2), ("B", 2), ("C", 2)]⟩

def cC2 : Comp := ⟨[("C", 2)]⟩

def cPQ : Comp := ⟨[("P", 1), ("Q", 1)]⟩

def cS : Comp := ⟨[("S", 1)]⟩

def cPQS : Comp := ⟨[("P", 1), ("Q", 1), ("S", 1)]⟩

def cP2Q2 : Comp := ⟨[("P", 2), ("Q", 2)]⟩

/-- `A2B2 -> 2 AB`: consumes `A2B2`, produces the intermediate `AB`. -/
def rxnA : Rxn := ⟨[cA2B2], [cAB]⟩

/-- `AB + ABC -> A2B2 + C`: consumes the intermediate `AB`, regenerates
`A2B2`. -/
def rxnB : Rxn := ⟨[cAB, cABC], [cA2B2, cC]⟩

/-- `A2B2C2 -> 2 AB + C2`: an outside reaction that also produces the
intermediate `AB`. -/
def rxnD : Rxn := ⟨[cA2B2C2], [cAB, cC2]⟩

/-- `PQ + S -> PQS`: consumes the intermediate `S`, produces the intermediate
`PQS`. -/
def rxnP1 : Rxn := ⟨[cPQ, cS], [cPQS]⟩

/-- `2 PQS -> 2 S + P2Q2`: consumes `PQS`, regenerates `S`. -/
def rxnP2 : Rxn := ⟨[cPQS], [cS, cP2Q2]⟩

/-- A net reaction (`2 PQ -> P2Q2`) for exercising `BalancedPathway.balance`. -/
def rxnNet : Rxn := ⟨[cPQ], [cP2Q2]⟩

/-- The remainder `ABC -> C` of the `{rxnA, rxnB}` union admits no positive
stoichiometric balance at all (element `A` occurs only on the left), so the
modelled bounded balancer's failure on it is faithful to any exact solver. -/
theorem no_positive_balance_ABC_C (k₁ k₂ : ℕ) :
    balancedCoeffs [cABC] [cC] [k₁ + 1] [k₂] = false := by
  unfold balancedCoeffs
  have hA : weightedCount [cABC] [k₁ + 1] "A" = k₁ + 1 := by
    simp [weightedCount, cABC, Comp.count, List.filter]
  have hA' : weightedCount [cC] [k₂] "A" = 0 := by
    simp [weightedCount, cC, Comp.count, List.filter]
  have hmem : "A" ∈ elemsOfComps ([cABC] ++ [cC]) := by decide
  refine (Bool.eq_false_iff).2 fun hall => ?_
  have := List.all_eq_true.1 hall "A" hmem
  rw [hA, hA'] at this
  simp at this

/-! ## Claim theorems for the pathway component -/

/-- C2 (code_bug evidence).  The spec says `BalancedPathway.balance` never
raises and always returns a constructed `BalancedPathway`; the code instead
raises `NameError` on every call, because the names `comp_matrix`,
`net_coeffs`, `multiplicities`, `reactions` and `costs` used in its body are
not defined in any enclosing scope. -/
theorem balance_never_returns (pathwaySets : List (List Rxn)) (netReaction : Rxn)
    (tol : ℚ) :
    BalancedPathwayBalance pathwaySets netReaction tol =
      .error (.nameError "comp_matrix") := rfl

/-- C1 (code_bug evidence).  The spec says the returned object's `balanced`
flag is `True` when the reconstructed coefficient vector matches the net
reaction within `tol`.  In the code no call produces a result at all
(`NameError`, first conjunct, at the spec's own exact-reproduction scenario);
and the return statement `cls(reactions, coefficients, costs)` never passes
the computed `is_balanced`, so the constructor's `balanced=None` default would
make every returned flag `False` (second conjunct). -/
theorem balance_flag_never_set :
    BalancedPathwayBalance [[rxnP1, rxnP2]] rxnNet (1 / 1000000) =
        .error (.nameError "comp_matrix") ∧
      (BalancedPathwayInit [rxnP1, rxnP2] [1, 1] [0, 0] none).balanced = false :=
  ⟨rfl, rfl⟩

/-- C3 (code_bug evidence).  In `rxns = [rxnA, rxnB, rxnD]` with no
precursors, the combo `[rxnA, rxnB]` cross-feeds through `AB`, but `AB` is
also produced by the outside reaction `rxnD`, so per the claim `rxnB` must not
be marked and no subset qualifies.  The code marks it anyway — the test
`overlapping_phases not in other_comp` asks whether the frozenset
`{AB}` *is an element of* the composition set `other_comp`, which never holds —
and the call reports `interdependent = True`. -/
theorem overlap_mark_ignores_outside_availability :
    interComp (uniqueMinus rxnB.reactants []) (uniqueMinus rxnA.products []) = [cAB] ∧
      PyObj.comp cAB ∈ otherComps [rxnA, rxnB, rxnD] [rxnA, rxnB] ∧
      pyMem (PyObj.fset [cAB]) (otherComps [rxnA, rxnB, rxnD] [rxnA, rxnB]) = false ∧
      overlapRow ([rxnA, rxnB].map (fun r => uniqueMinus r.reactants []))
          ([rxnA, rxnB].map (fun r => uniqueMinus r.products []))
          (otherComps [rxnA, rxnB, rxnD] [rxnA, rxnB]) 1 = true ∧
      comboDetected [rxnA, rxnB, rxnD] [] [rxnA, rxnB] = true ∧
      containsInterdependentRxns [rxnA, rxnB, rxnD] [] = (true, none) := by
  decide

/-- C4 (counterexample).  `rxnA` and `rxnB` satisfy every hypothesis of the
claim — `rxnA`'s unique product `AB` is among `rxnB`'s reactants, `rxnB`'s
unique product `A2B2` is among `rxnA`'s reactants, neither is a precursor —
yet the combined reaction is `None`: after cancelling the shared species the
remainder `ABC -> C` cannot be balanced (`no_positive_balance_ABC_C`), so the
result is `(True, None)`, not a non-null mass-balanced reaction. -/
theorem crossfeed_pair_combined_rxn_none :
    (rxnA ≠ rxnB ∧ cAB ∈ rxnA.products ∧ cAB ∈ rxnB.reactants ∧
        cA2B2 ∈ rxnB.products ∧ cA2B2 ∈ rxnA.reactants ∧
        cAB ∉ ([] : List Comp) ∧ cA2B2 ∉ ([] : List Comp)) ∧
      containsInterdependentRxns [rxnA, rxnB] [] = (true, none) := by
  decide

/-- C4 (amended).  For every pathway of two distinct reactions `A`, `B`
and precursor set `P` with mutual cross-feeding through non-precursor
intermediates, `contains_interdependent_rxns` returns `interdependent = True`,
and the combined reaction — when one is returned at all — is elementally
mass-balanced (it can be `None` when balancing the cancelled union fails). -/
theorem two_rxn_crossfeed_interdependent (A B : Rxn) (P : List Comp) (x y : Comp)
    (hne : A ≠ B)
    (hx1 : x ∈ A.products) (hx2 : x ∉ P) (hx3 : x ∈ B.reactants)
    (hy1 : y ∈ B.products) (hy2 : y ∉ P) (hy3 : y ∈ A.reactants) :
    (containsInterdependentRxns [A, B] P).1 = true ∧
      ∀ r, (containsInterdependentRxns [A, B] P).2 = some r →
        r.isMassBalanced = true := by
  have hded : ([A, B] : List Rxn).dedup = [A, B] := by
    rw [List.dedup_cons_of_not_mem (by simpa using hne)]
    rfl
  have hyR : y ∈ uniqueMinus A.reactants P :=
    List.mem_filter.2 ⟨List.mem_dedup.2 hy3, by simpa using hy2⟩
  have hyP : y ∈ uniqueMinus B.products P :=
    List.mem_filter.2 ⟨List.mem_dedup.2 hy1, by simpa using hy2⟩
  have hxR : x ∈ uniqueMinus B.reactants P :=
    List.mem_filter.2 ⟨List.mem_dedup.2 hx3, by simpa using hx2⟩
  have hxP : x ∈ uniqueMinus A.products P :=
    List.mem_filter.2 ⟨List.mem_dedup.2 hx1, by simpa using hx2⟩
  have hoth : otherComps [A, B] [A, B] = [] := by
    unfold otherComps
    have : ([A, B] : List Rxn).filter (fun r => decide (r ∉ [A, B])) = [] := by
      simp
    rw [this]
    rfl
  have hskip : comboSkipped P [A, B] = false := by
    have hA : (A.reactants.all fun c => decide (c ∈ P)) = false :=
      (Bool.eq_false_iff).2 fun hall => hy2 (by simpa using List.all_eq_true.1 hall y hy3)
    have hB : (B.reactants.all fun c => decide (c ∈ P)) = false :=
      (Bool.eq_false_iff).2 fun hall => hx2 (by simpa using List.all_eq_true.1 hall x hx3)
    simp [comboSkipped, hA, hB]
  have hrow : ∀ i ∈ List.range ([A, B] : List Rxn).length,
      overlapRow ([A, B].map (fun r => uniqueMinus r.reactants P))
        ([A, B].map (fun r => uniqueMinus r.products P)) (otherComps [A, B] [A, B]) i = true := by
    intro i hi
    rw [hoth]
    unfold overlapRow
    have hlen : (([A, B] : List Rxn).map (fun r => uniqueMinus r.reactants P)).length = 2 := rfl
    rw [hlen]
    have hi2 : i < 2 := List.mem_range.1 hi
    interval_cases i
    · -- i = 0 : reaction A overlaps through y produced by B (j = 1)
      refine List.any_eq_true.2 ⟨1, by decide, ?_⟩
      have hovl : y ∈ interComp (uniqueMinus A.reactants P) (uniqueMinus B.products P) :=
        List.mem_filter.2 ⟨hyR, by simpa using hyP⟩
      simp [List.getD, pyMem, List.isEmpty_eq_false_iff_exists_mem]
      intro hnil
      rw [hnil] at hovl
      exact absurd hovl (List.not_mem_nil y)
    · -- i = 1 : reaction B overlaps through x produced by A (j = 0)
      refine List.any_eq_true.2 ⟨0, by decide, ?_⟩
      have hovl : x ∈ interComp (uniqueMinus B.reactants P) (uniqueMinus A.products P) :=
        List.mem_filter.2 ⟨hxR, by simpa using hxP⟩
      simp [List.getD, pyMem, List.isEmpty_eq_false_iff_exists_mem]
      intro hnil
      rw [hnil] at hovl
      exact absurd hovl (List.not_mem_nil x)
  have hdet : comboDetected [A, B] P [A, B] = true := by
    unfold comboDetected
    rw [hskip]
    simpa using List.all_eq_true.2 hrow
  have hmem : [A, B] ∈ limitedPowerset ([A, B] : List Rxn) 2 := by
    unfold limitedPowerset
    exact List.mem_flatMap.2 ⟨1, by decide, List.mem_sublistsLen.2 ⟨List.Sublist.refl _, rfl⟩⟩
  constructor
  · unfold containsInterdependentRxns
    rw [hded]
    exact foldl_interdependentStep_fst_true _ _ _ _ [A, B] hmem hdet
  · intro r hr
    exact containsInterdependentRxns_snd_balanced _ _ r hr

/-- Witness for `two_rxn_crossfeed_interdependent`, at the balanceable pair
`rxnP1`, `rxnP2` (intermediates `PQS` and `S`, no precursors). -/
theorem two_rxn_crossfeed_interdependent_witness :
    (containsInterdependentRxns [rxnP1, rxnP2] []).1 = true ∧
      ∀ r, (containsInterdependentRxns [rxnP1, rxnP2] []).2 = some r →
        r.isMassBalanced = true :=
  two_rxn_crossfeed_interdependent rxnP1 rxnP2 [] cPQS cS (by decide) (by decide)
    (by decide) (by decide) (by decide) (by decide) (by decide)

/-- C5 (counterexample).  In `[rxnP1, rxnP2, rxnA, rxnB]` the subset
`[rxnA, rxnB]` is detected as interdependent and its combined reaction cannot
be balanced, yet the call does not return `None` for the combined reaction:
the other detected subset `[rxnP1, rxnP2]` balanced successfully and its
combined reaction is returned. -/
theorem balanced_subset_overrides_failed_subset :
    ([rxnA, rxnB] ∈ limitedPowerset ([rxnP1, rxnP2, rxnA, rxnB].dedup : List Rxn) 4 ∧
        comboDetected ([rxnP1, rxnP2, rxnA, rxnB].dedup) [] [rxnA, rxnB] = true ∧
        comboCombinedBalance [rxnA, rxnB] = none) ∧
      (containsInterdependentRxns [rxnP1, rxnP2, rxnA, rxnB] []).1 = true ∧
      (containsInterdependentRxns [rxnP1, rxnP2, rxnA, rxnB] []).2 =
        some ⟨[cPQ], [cP2Q2], [2], [1]⟩ := by
  decide

/-- C5 (amended).  When some enumerated subset is detected as
interdependent, the call still returns `interdependent = True`; and the
returned combined reaction is `None` provided every detected subset's balance
attempt fails (a combined reaction from another detected subset that balanced
successfully is returned instead). -/
theorem detected_combo_reports_interdependent (reactions : List Rxn)
    (precursors : List Comp) (c : List Rxn)
    (hc : c ∈ limitedPowerset reactions.dedup reactions.dedup.length)
    (hdet : comboDetected reactions.dedup precursors c = true) :
    (containsInterdependentRxns reactions precursors).1 = true ∧
      ((∀ c' ∈ limitedPowerset reactions.dedup reactions.dedup.length,
          comboDetected reactions.dedup precursors c' = true →
            comboCombinedBalance c' = none) →
        (containsInterdependentRxns reactions precursors).2 = none) := by
  have hone : ¬((reactions.dedup.length == 1) = true) := by
    intro h1
    have h1' : reactions.dedup.length = 1 := by simpa using h1
    unfold limitedPowerset at hc
    rw [h1'] at hc
    rcases List.mem_flatMap.1 hc with ⟨k, hk, hck⟩
    have hk0 : k = 0 := by simpa using hk
    subst hk0
    rw [comboDetected_len_one (List.length_of_sublistsLen hck)] at hdet
    cases hdet
  unfold containsInterdependentRxns
  rw [if_neg hone]
  exact ⟨foldl_interdependentStep_fst_true _ _ _ _ c hc hdet,
    fun hall => foldl_interdependentStep_snd_none _ _ _ _ rfl hall⟩

/-- Witness for `detected_combo_reports_interdependent`: with only the failing
pair `[rxnA, rxnB]` present, every detected subset fails to balance, and the
result is `(True, None)`. -/
theorem detected_combo_reports_interdependent_witness :
    (containsInterdependentRxns [rxnA, rxnB] []).1 = true ∧
      (containsInterdependentRxns [rxnA, rxnB] []).2 = none := by
  have h := detected_combo_reports_interdependent [rxnA, rxnB] [] [rxnA, rxnB]
    (by decide) (by decide)
  exact ⟨h.1, h.2 (by decide)⟩

/-- C10 (confirmed).  The pair returned by
`contains_interdependent_rxns` never carries a combined reaction without the
interdependent flag: whenever the flag is `False` the combined reaction is
`None`. -/
theorem combined_rxn_only_when_interdependent (reactions : List Rxn)
    (precursors : List Comp)
    (h : (containsInterdependentRxns reactions precursors).1 = false) :
    (containsInterdependentRxns reactions precursors).2 = none := by
  unfold containsInterdependentRxns at h ⊢
  split at h
  · rename_i hcond
    rw [if_pos hcond]
  · rename_i hcond
    rw [if_neg hcond]
    exact foldl_interdependentStep_flag_inv _ _ _ _ (fun _ => rfl) h

/-- Witness for `combined_rxn_only_when_interdependent` at a single-reaction
pathway (the size-1 shortcut returns `(False, None)`). -/
theorem combined_rxn_only_when_interdependent_witness :
    (containsInterdependentRxns [rxnP1] []).1 = false ∧
      (containsInterdependentRxns [rxnP1] []).2 = none :=
  ⟨by decide, combined_rxn_only_when_interdependent [rxnP1] [] (by decide)⟩

/-! ## `GibbsEntrySet` (entry management)

Entries compare by identity for set membership (polymorphs with equal
compositions coexist); the `id` field models that identity.  The phase-diagram
builder is an external collaborator (pymatgen `PhaseDiagram`, reached through
`expand_pd` from `rxn_network.thermo.utils`, not under `src/`); per the spec
it is a pure function from an entry collection to hull structures exposing
`all_entries` and `get_e_above_hull`, modelled by the `PhaseDiag` structure
below and passed to `filterByStability` as data. -/

structure Entry where
  id : ℕ
  comp : Comp
  energyPerAtom : ℚ
deriving DecidableEq, Repr

/-- Modelled from the spec: one member of the output of `expand_pd`
(`rxn_network.thermo.utils`, not under `src/`) — a phase diagram for one
chemical subsystem, "a black-box library producing hull energies and stable
entries", exposing `all_entries` and `get_e_above_hull`. -/
structure PhaseDiag where
  allEntries : List Entry
  eah : Entry → ℚ

/-- Lookup in the `all_comps` dict (keys are reduced formulas). -/
def alistFind (k : List (String × ℕ)) (m : List (List (String × ℕ) × Entry)) :
    Option Entry :=
  (m.find? (fun p => p.1 = k)).map Prod.snd

/-- Assignment `all_comps[formula] = entry`. -/
def alistInsert (k : List (String × ℕ)) (v : Entry)
    (m : List (List (String × ℕ) × Entry)) : List (List (String × ℕ) × Entry) :=
  (k, v) :: m.filter (fun p => p.1 ≠ k)

/-- The loop state of `filter_by_stability`: the accumulating
`filtered_entries` set (as a duplicate-free list) and the `all_comps` dict. -/
structure FbsState where
  filtered : List Entry
  allComps : List (List (String × ℕ) × Entry)

/-- One iteration of the inner loop of `filter_by_stability`, processing
`entry` of phase diagram `pd`.  `filtered_entries.remove(all_comps[formula])`
is modelled with `List.erase`; the removed entry is always present (see
`fbsInv` below), so Python's `KeyError` cannot fire. -/
def fbsProcess (cutoff : ℚ) (includePolymorphs : Bool) (st : FbsState)
    (pe : PhaseDiag × Entry) : FbsState :=
  if pe.2 ∈ st.filtered || pe.1.eah pe.2 > cutoff then st
  else
    match includePolymorphs, alistFind pe.2.comp.reduced st.allComps with
    | false, some h =>
        if h.energyPerAtom < pe.2.energyPerAtom then st
        else
          { filtered := (st.filtered.erase h) ++ [pe.2],
            allComps := alistInsert pe.2.comp.reduced pe.2 st.allComps }
    | _, _ =>
        { filtered := st.filtered ++ [pe.2],
          allComps := alistInsert pe.2.comp.reduced pe.2 st.allComps }

/-- The flattened iteration domain of the two nested loops
(`for chemsys, pd in pd_dict.items(): for entry in pd.all_entries:`). -/
def fbsPairs (pds : List PhaseDiag) : List (PhaseDiag × Entry) :=
  pds.flatMap (fun pd => pd.allEntries.map (fun e => (pd, e)))

/-- Embeds `GibbsEntrySet.filter_by_stability`, with the `expand_pd` output
supplied as `pds`.  Returns the contents of the resulting entry set. -/
def filterByStability (pds : List PhaseDiag) (cutoff : ℚ)
    (includePolymorphs : Bool) : List Entry :=
  ((fbsPairs pds).foldl (fbsProcess cutoff includePolymorphs) ⟨[], []⟩).filtered

/-! ### Dictionary lemmas for `all_comps` -/

theorem alistFind_insert_self (k : List (String × ℕ)) (v : Entry)
    (m : List (List (String × ℕ) × Entry)) :
    alistFind k (alistInsert k v m) = some v := by
  unfold alistFind alistInsert
  rw [List.find?_cons_of_pos _ (by simp)]
  rfl

theorem alistFind_insert_ne (k k' : List (String × ℕ)) (v : Entry)
    (m : List (List (String × ℕ) × Entry)) (h : k' ≠ k) :
    alistFind k' (alistInsert k v m) = alistFind k' m := by
  unfold alistFind alistInsert
  rw [List.find?_cons_of_neg _ (by simpa using fun he => h he.symm)]
  congr 1
  induction m with
  | nil => rfl
  | cons a t ih =>
    by_cases ha : a.1 = k
    · rw [List.filter_cons_of_neg (by simpa using ha),
        List.find?_cons_of_neg _
          (by simp only [ha, decide_eq_true_eq]; exact fun he => h he.symm), ih]
    · by_cases ha' : a.1 = k'
      · rw [List.filter_cons_of_pos (by simpa using ha),
          List.find?_cons_of_pos _ (by simpa using ha'),
          List.find?_cons_of_pos _ (by simpa using ha')]
      · rw [List.filter_cons_of_pos (by simpa using ha),
          List.find?_cons_of_neg _ (by simpa using ha'),
          List.find?_cons_of_neg _ (by simpa using ha'), ih]

theorem alistFind_mem {k : List (String × ℕ)} {m : List (List (String × ℕ) × Entry)}
    {v : Entry} (h : alistFind k m = some v) : (k, v) ∈ m := by
  unfold alistFind at h
  rcases Option.map_eq_some'.1 h with ⟨p, hp, rfl⟩
  have hk : p.1 = k := by simpa using List.find?_some hp
  have := List.mem_of_find?_eq_some hp
  rwa [show p = (k, p.2) from Prod.ext hk rfl] at this

theorem alistFind_eq_none {k : List (String × ℕ)}
    {m : List (List (String × ℕ) × Entry)} (h : alistFind k m = none) :
    ∀ p ∈ m, p.1 ≠ k := by
  intro p hp
  unfold alistFind at h
  have := List.find?_eq_none.1 (Option.map_eq_none'.1 h) p hp
  simpa using this

/-! ### The loop invariant of `filter_by_stability` (include_polymorphs = False) -/

/-- Invariant of the `filter_by_stability` loop after processing the pairs in
`L`:  `all_comps` maps each reduced formula to its current holder, which is in
`filtered_entries`; every filtered entry is its formula's holder; every
filtered entry was seen passing the cutoff; and every processed entry passing
the cutoff has a holder of its formula with no larger energy. -/
structure FbsInv (cutoff : ℚ) (L : List (PhaseDiag × Entry)) (st : FbsState) : Prop where
  keyOf : ∀ p ∈ st.allComps, p.2.comp.reduced = p.1
  holderMem : ∀ p ∈ st.allComps, p.2 ∈ st.filtered
  filteredHolder : ∀ e ∈ st.filtered, alistFind e.comp.reduced st.allComps = some e
  nodupF : st.filtered.Nodup
  provenance : ∀ e ∈ st.filtered, ∃ pd, (pd, e) ∈ L ∧ pd.eah e ≤ cutoff
  minimal : ∀ pe ∈ L, pe.1.eah pe.2 ≤ cutoff →
    ∃ h, alistFind pe.2.comp.reduced st.allComps = some h ∧
      h.energyPerAtom ≤ pe.2.energyPerAtom

theorem fbsInv_init (cutoff : ℚ) : FbsInv cutoff [] ⟨[], []⟩ := by
  refine ⟨?_, ?_, ?_, ?_, ?_, ?_⟩ <;> simp

theorem fbsInv_step {cutoff : ℚ} {L : List (PhaseDiag × Entry)} {st : FbsState}
    (inv : FbsInv cutoff L st) (pe : PhaseDiag × Entry) :
    FbsInv cutoff (L ++ [pe]) (fbsProcess cutoff false st pe) := by
  have weakProv : ∀ e ∈ st.filtered, ∃ pd, (pd, e) ∈ L ++ [pe] ∧ pd.eah e ≤ cutoff := by
    intro e he
    rcases inv.provenance e he with ⟨pd, hm, hc⟩
    exact ⟨pd, List.mem_append_left _ hm, hc⟩
  unfold fbsProcess
  by_cases hskip : (pe.2 ∈ st.filtered || pe.1.eah pe.2 > cutoff) = true
  · rw [if_pos hskip]
    refine ⟨inv.keyOf, inv.holderMem, inv.filteredHolder, inv.nodupF, weakProv, ?_⟩
    intro pe' hpe' hc'
    rcases List.mem_append.1 hpe' with hL | hnew
    · exact inv.minimal pe' hL hc'
    · rcases List.mem_singleton.1 hnew with rfl
      have hmemf : pe'.2 ∈ st.filtered := by
        simp only [Bool.or_eq_true, decide_eq_true_eq] at hskip
        rcases hskip with h | h
        · exact h
        · exact absurd h (not_lt.2 hc')
      exact ⟨pe'.2, inv.filteredHolder pe'.2 hmemf, le_refl _⟩
  · rw [if_neg hskip]
    have hnotmem : pe.2 ∉ st.filtered := by
      intro hm
      exact hskip (by simp [hm])
    have hpass : pe.1.eah pe.2 ≤ cutoff := by
      by_contra hlt
      exact hskip (by simp [not_le.1 hlt])
    cases hfind : alistFind pe.2.comp.reduced st.allComps with
    | none =>
      -- fresh formula
      show FbsInv cutoff (L ++ [pe])
        { filtered := st.filtered ++ [pe.2],
          allComps := alistInsert pe.2.comp.reduced pe.2 st.allComps }
      refine ⟨?_, ?_, ?_, ?_, ?_, ?_⟩
      · intro p hp
        rcases List.mem_cons.1 hp with rfl | hp'
        · rfl
        · exact inv.keyOf p (List.mem_of_mem_filter hp')
      · intro p hp
        rcases List.mem_cons.1 hp with rfl | hp'
        · exact List.mem_append_right _ (List.mem_singleton_self _)
        · exact List.mem_append_left _ (inv.holderMem p (List.mem_of_mem_filter hp'))
      · intro e he
        rcases List.mem_append.1 he with he' | he'
        · have hne : e.comp.reduced ≠ pe.2.comp.reduced := by
            intro heq
            have := inv.filteredHolder e he'
            rw [heq, hfind] at this
            cases this
          rw [alistFind_insert_ne _ _ _ _ hne]
          exact inv.filteredHolder e he'
        · rcases List.mem_singleton.1 he' with rfl
          exact alistFind_insert_self _ _ _
      · exact List.Nodup.append inv.nodupF (List.nodup_singleton _)
          (by simpa using hnotmem)
      · intro e he
        rcases List.mem_append.1 he with he' | he'
        · exact weakProv e he'
        · rcases List.mem_singleton.1 he' with rfl
          exact ⟨pe.1, List.mem_append_right _ (List.mem_singleton_self _), hpass⟩
      · intro pe' hpe' hc'
        rcases List.mem_append.1 hpe' with hL | hnew
        · rcases inv.minimal pe' hL hc' with ⟨h', hh', hle'⟩
          have hne : pe'.2.comp.reduced ≠ pe.2.comp.reduced := by
            intro heq
            rw [heq, hfind] at hh'
            cases hh'
          rw [alistFind_insert_ne _ _ _ _ hne]
          exact ⟨h', hh', hle'⟩
        · rcases List.mem_singleton.1 hnew with rfl
          exact ⟨pe'.2, alistFind_insert_self _ _ _, le_refl _⟩
    | some h =>
      -- formula already has a holder h
      show FbsInv cutoff (L ++ [pe])
        (if h.energyPerAtom < pe.2.energyPerAtom then st
         else { filtered := st.filtered.erase h ++ [pe.2],
                allComps := alistInsert pe.2.comp.reduced pe.2 st.allComps })
      have hkey : h.comp.reduced = pe.2.comp.reduced := inv.keyOf _ (alistFind_mem hfind)
      have hmemh : h ∈ st.filtered := inv.holderMem _ (alistFind_mem hfind)
      by_cases hlt : h.energyPerAtom < pe.2.energyPerAtom
      · rw [if_pos hlt]
        refine ⟨inv.keyOf, inv.holderMem, inv.filteredHolder, inv.nodupF, weakProv, ?_⟩
        intro pe' hpe' hc'
        rcases List.mem_append.1 hpe' with hL | hnew
        · exact inv.minimal pe' hL hc'
        · rcases List.mem_singleton.1 hnew with rfl
          exact ⟨h, hfind, le_of_lt hlt⟩
      · rw [if_neg hlt]
        have hge : pe.2.energyPerAtom ≤ h.energyPerAtom := not_lt.1 hlt
        refine ⟨?_, ?_, ?_, ?_, ?_, ?_⟩
        · intro p hp
          rcases List.mem_cons.1 hp with rfl | hp'
          · rfl
          · exact inv.keyOf p (List.mem_of_mem_filter hp')
        · intro p hp
          rcases List.mem_cons.1 hp with rfl | hp'
          · exact List.mem_append_right _ (List.mem_singleton_self _)
          · have hp'' := List.mem_of_mem_filter hp'
            have hkeep : p.1 ≠ pe.2.comp.reduced := by
              have := List.of_mem_filter hp'
              simpa using this
            have hpm : p.2 ∈ st.filtered := inv.holderMem p hp''
            have hpne : p.2 ≠ h := by
              intro heq
              apply hkeep
              rw [← inv.keyOf p hp'', heq, hkey]
            exact List.mem_append_left _ ((inv.nodupF.mem_erase_iff).2 ⟨hpne, hpm⟩)
        · intro e he
          rcases List.mem_append.1 he with he' | he'
          · have hee := (inv.nodupF.mem_erase_iff).1 he'
            have hne : e.comp.reduced ≠ pe.2.comp.reduced := by
              intro heq
              have := inv.filteredHolder e hee.2
              rw [heq, hfind] at this
              exact hee.1 (Option.some.inj this).symm
            rw [alistFind_insert_ne _ _ _ _ hne]
            exact inv.filteredHolder e hee.2
          · rcases List.mem_singleton.1 he' with rfl
            exact alistFind_insert_self _ _ _
        · exact List.Nodup.append (inv.nodupF.erase h) (List.nodup_singleton _)
            (by
              intro a ha hb
              rcases List.mem_singleton.1 hb with rfl
              exact hnotmem (List.mem_of_mem_erase ha))
        · intro e he
          rcases List.mem_append.1 he with he' | he'
          · exact weakProv e (List.mem_of_mem_erase he')
          · rcases List.mem_singleton.1 he' with rfl
            exact ⟨pe.1, List.mem_append_right _ (List.mem_singleton_self _), hpass⟩
        · intro pe' hpe' hc'
          rcases List.mem_append.1 hpe' with hL | hnew
          · rcases inv.minimal pe' hL hc' with ⟨h', hh', hle'⟩
            by_cases heq : pe'.2.comp.reduced = pe.2.comp.reduced
            · rw [heq] at hh'
              rw [hfind] at hh'
              obtain rfl := Option.some.inj hh'
              refine ⟨pe.2, ?_, le_trans hge hle'⟩
              rw [heq]
              exact alistFind_insert_self _ _ _
            · rw [alistFind_insert_ne _ _ _ _ heq]
              exact ⟨h', hh', hle'⟩
          · rcases List.mem_singleton.1 hnew with rfl
            exact ⟨pe'.2, alistFind_insert_self _ _ _, le_refl _⟩

theorem fbsInv_foldl (cutoff : ℚ) :
    ∀ (l P : List (PhaseDiag × Entry)) (st : FbsState), FbsInv cutoff P st →
      FbsInv cutoff (P ++ l) (l.foldl (fbsProcess cutoff false) st) := by
  intro l
  induction l with
  | nil => intro P st h; simpa using h
  | cons pe t ih =>
    intro P st h
    have h' := ih (P ++ [pe]) _ (fbsInv_step h pe)
    simpa using h'

/-- The invariant at the end of `filter_by_stability` (include_polymorphs
False). -/
theorem fbsInv_final (pds : List PhaseDiag) (cutoff : ℚ) :
    FbsInv cutoff (fbsPairs pds)
      ((fbsPairs pds).foldl (fbsProcess cutoff false) ⟨[], []⟩) := by
  have h := fbsInv_foldl cutoff (fbsPairs pds) [] ⟨[], []⟩ (fbsInv_init cutoff)
  simpa using h

theorem mem_fbsPairs {pds : List PhaseDiag} {pd : PhaseDiag} {e : Entry} :
    (pd, e) ∈ fbsPairs pds ↔ pd ∈ pds ∧ e ∈ pd.allEntries := by
  unfold fbsPairs
  simp only [List.mem_flatMap, List.mem_map]
  constructor
  · rintro ⟨pd', hpd', e', he', heq⟩
    cases heq
    exact ⟨hpd', he'⟩
  · rintro ⟨hpd, he⟩
    exact ⟨pd, hpd, e, he, rfl⟩

/-- With polymorph collapse on, the filtered set never holds two entries of the
same reduced formula (at any cutoff). -/
theorem filterByStability_unique_formula (pds : List PhaseDiag) (cutoff : ℚ) :
    ∀ e₁ ∈ filterByStability pds cutoff false, ∀ e₂ ∈ filterByStability pds cutoff false,
      e₁.comp.reduced = e₂.comp.reduced → e₁ = e₂ := by
  have inv := fbsInv_final pds cutoff
  intro e₁ h₁ e₂ h₂ hred
  have f₁ := inv.filteredHolder e₁ h₁
  have f₂ := inv.filteredHolder e₂ h₂
  rw [hred] at f₁
  exact Option.some.inj (f₁.symm.trans f₂)

/-- Concrete entries and subsystem hulls for the witnesses: `entA` and `entB`
share the reduced formula `AB`; `entB` sits 1 above the hull. -/
def entA : Entry := ⟨0, cAB, -1⟩

def entB : Entry := ⟨1, cA2B2, 2⟩

def pdW : PhaseDiag := ⟨[entA, entB], fun e => if e = entB then 1 else 0⟩

def pdV : PhaseDiag := ⟨[entA], fun _ => 0⟩

/-- C6 (confirmed).  At cutoff `e_above_hull = 0` with
`include_polymorphs = False`, and with the external hull builder returning
non-negative energies above hull: the result holds at most one entry per
reduced formula; every returned entry has energy-above-hull exactly 0 in a
subsystem phase diagram listing it; and a returned entry's energy per atom is
no larger than that of any entry of the same reduced formula that passes the
cutoff anywhere. -/
theorem filter_by_stability_stable_unique (pds : List PhaseDiag)
    (h0 : ∀ pd ∈ pds, ∀ e : Entry, 0 ≤ pd.eah e) :
    (∀ e₁ ∈ filterByStability pds 0 false, ∀ e₂ ∈ filterByStability pds 0 false,
        e₁.comp.reduced = e₂.comp.reduced → e₁ = e₂) ∧
      (∀ e ∈ filterByStability pds 0 false,
        ∃ pd ∈ pds, e ∈ pd.allEntries ∧ pd.eah e = 0) ∧
      (∀ e ∈ filterByStability pds 0 false, ∀ pd ∈ pds, ∀ e' ∈ pd.allEntries,
        pd.eah e' ≤ 0 → e'.comp.reduced = e.comp.reduced →
          e.energyPerAtom ≤ e'.energyPerAtom) := by
  have inv := fbsInv_final pds 0
  refine ⟨filterByStability_unique_formula pds 0, ?_, ?_⟩
  · intro e he
    rcases inv.provenance e he with ⟨pd, hmem, hc⟩
    rcases mem_fbsPairs.1 hmem with ⟨hpd, hall⟩
    exact ⟨pd, hpd, hall, le_antisymm hc (h0 pd hpd e)⟩
  · intro e he pd hpd e' he' hc' hred
    rcases inv.minimal (pd, e') (mem_fbsPairs.2 ⟨hpd, he'⟩) hc' with ⟨h, hh, hle⟩
    have hfe := inv.filteredHolder e he
    rw [← hred] at hfe
    obtain rfl := Option.some.inj (hfe.symm.trans hh)
    exact hle

/-- Witness for `filter_by_stability_stable_unique`: one hull over the
polymorph pair `entA`/`entB`, with `entB` strictly above the hull. -/
theorem filter_by_stability_stable_unique_witness :
    (∀ pd ∈ [pdW], ∀ e : Entry, 0 ≤ pd.eah e) ∧
      (∀ e ∈ filterByStability [pdW] 0 false,
        ∃ pd ∈ [pdW], e ∈ pd.allEntries ∧ pd.eah e = 0) := by
  have h0 : ∀ pd ∈ [pdW], ∀ e : Entry, 0 ≤ pd.eah e := by
    intro pd hpd e
    rcases List.mem_singleton.1 hpd with rfl
    show (0 : ℚ) ≤ if e = entB then 1 else 0
    split <;> norm_num
  exact ⟨h0, (filter_by_stability_stable_unique [pdW] h0).2.1⟩

/-! ### Idempotence of `filter_by_stability` at cutoff 0 -/

/-- The invariant of a second `filter_by_stability` pass whose phase diagrams
only list entries of `F`, a set with at most one entry per reduced formula:
the filtered set is exactly the set of already-seen passing entries, and stays
inside `F`. -/
structure Fbs2Inv (F : List Entry) (L : List (PhaseDiag × Entry)) (st : FbsState) : Prop where
  base : FbsInv 0 L st
  subF : ∀ e ∈ st.filtered, e ∈ F
  mem : ∀ e, e ∈ st.filtered ↔ ∃ pd, (pd, e) ∈ L ∧ pd.eah e ≤ 0

theorem fbs2Inv_step {F : List Entry} {L : List (PhaseDiag × Entry)} {st : FbsState}
    (hFu : ∀ e₁ ∈ F, ∀ e₂ ∈ F, e₁.comp.reduced = e₂.comp.reduced → e₁ = e₂)
    (inv : Fbs2Inv F L st) (pe : PhaseDiag × Entry) (hpeF : pe.2 ∈ F) :
    Fbs2Inv F (L ++ [pe]) (fbsProcess 0 false st pe) := by
  have memext : ∀ e : Entry, (∃ pd, (pd, e) ∈ L ∧ pd.eah e ≤ 0) →
      ∃ pd, (pd, e) ∈ L ++ [pe] ∧ pd.eah e ≤ 0 := by
    rintro e ⟨pd, hm, hc⟩
    exact ⟨pd, List.mem_append_left _ hm, hc⟩
  by_cases hskip : (pe.2 ∈ st.filtered || pe.1.eah pe.2 > (0 : ℚ)) = true
  · have hval : fbsProcess 0 false st pe = st := by
      unfold fbsProcess
      rw [if_pos hskip]
    refine ⟨fbsInv_step inv.base pe, ?_, ?_⟩
    · rw [hval]
      exact inv.subF
    · rw [hval]
      intro e
      rw [inv.mem e]
      constructor
      · exact memext e
      · rintro ⟨pd, hm, hc⟩
        rcases List.mem_append.1 hm with hL | hnew
        · exact ⟨pd, hL, hc⟩
        · have heq := List.mem_singleton.1 hnew
          have he2 : e = pe.2 := congrArg Prod.snd heq
          have hpd : pd = pe.1 := congrArg Prod.fst heq
          subst he2
          have hmm : pe.2 ∈ st.filtered := by
            simp only [Bool.or_eq_true, decide_eq_true_eq] at hskip
            rcases hskip with hsk | hsk
            · exact hsk
            · rw [hpd] at hc
              exact absurd hsk (not_lt.2 hc)
          exact (inv.mem pe.2).1 hmm
  · have hnotmem : pe.2 ∉ st.filtered := fun hm => hskip (by simp [hm])
    have hpass : pe.1.eah pe.2 ≤ 0 := by
      by_contra hlt
      exact hskip (by simp [not_le.1 hlt])
    cases hfind : alistFind pe.2.comp.reduced st.allComps with
    | some h =>
      exfalso
      have hmemh : h ∈ st.filtered := inv.base.holderMem _ (alistFind_mem hfind)
      have hkey : h.comp.reduced = pe.2.comp.reduced := inv.base.keyOf _ (alistFind_mem hfind)
      have : h = pe.2 := hFu h (inv.subF h hmemh) pe.2 hpeF hkey
      exact hnotmem (this ▸ hmemh)
    | none =>
      have hval : fbsProcess 0 false st pe =
          { filtered := st.filtered ++ [pe.2],
            allComps := alistInsert pe.2.comp.reduced pe.2 st.allComps } := by
        unfold fbsProcess
        rw [if_neg hskip, hfind]
      refine ⟨fbsInv_step inv.base pe, ?_, ?_⟩
      · rw [hval]
        intro e he
        rcases List.mem_append.1 he with he' | he'
        · exact inv.subF e he'
        · rcases List.mem_singleton.1 he' with rfl
          exact hpeF
      · rw [hval]
        intro e
        constructor
        · intro he
          rcases List.mem_append.1 he with he' | he'
          · exact memext e ((inv.mem e).1 he')
          · rcases List.mem_singleton.1 he' with rfl
            exact ⟨pe.1, List.mem_append_right _ (by simp), hpass⟩
        · rintro ⟨pd, hm, hc⟩
          rcases List.mem_append.1 hm with hL | hnew
          · exact List.mem_append_left _ ((inv.mem e).2 ⟨pd, hL, hc⟩)
          · have heq := List.mem_singleton.1 hnew
            have he2 : e = pe.2 := congrArg Prod.snd heq
            subst he2
            exact List.mem_append_right _ (by simp)

theorem fbs2Inv_foldl {F : List Entry}
    (hFu : ∀ e₁ ∈ F, ∀ e₂ ∈ F, e₁.comp.reduced = e₂.comp.reduced → e₁ = e₂) :
    ∀ (l P : List (PhaseDiag × Entry)) (st : FbsState), (∀ pe ∈ l, pe.2 ∈ F) →
      Fbs2Inv F P st → Fbs2Inv F (P ++ l) (l.foldl (fbsProcess 0 false) st) := by
  intro l
  induction l with
  | nil =>
    intro P st _ h
    simpa using h
  | cons pe t ih =>
    intro P st hl h
    have h' := ih (P ++ [pe]) _ (fun pe' hpe' => hl pe' (List.mem_cons_of_mem _ hpe'))
      (fbs2Inv_step hFu h pe (hl pe (List.mem_cons_self _ _)))
    simpa using h'

/-- C7 (confirmed).  Filtering an already `e_above_hull = 0`-filtered
collection again with the same cutoff returns an equal collection, given that
the hull builder on the filtered set behaves as a convex-hull construction:
its diagrams list only entries of the filtered set (`h1`), and every entry of
the filtered set, having been on its original hull, sits on some new
subsystem hull at energy 0 (`h2`). -/
theorem filter_by_stability_idempotent (pds₀ pds₁ : List PhaseDiag)
    (h1 : ∀ pd ∈ pds₁, ∀ e ∈ pd.allEntries, e ∈ filterByStability pds₀ 0 false)
    (h2 : ∀ e ∈ filterByStability pds₀ 0 false,
      ∃ pd ∈ pds₁, e ∈ pd.allEntries ∧ pd.eah e = 0) :
    ∀ e : Entry, e ∈ filterByStability pds₁ 0 false ↔
      e ∈ filterByStability pds₀ 0 false := by
  have hFu := filterByStability_unique_formula pds₀ 0
  have hcov : ∀ pe ∈ fbsPairs pds₁, pe.2 ∈ filterByStability pds₀ 0 false := by
    intro pe hpe
    obtain ⟨pd, e⟩ := pe
    rcases mem_fbsPairs.1 hpe with ⟨hpd, hall⟩
    exact h1 pd hpd e hall
  have inv2 := fbs2Inv_foldl hFu (fbsPairs pds₁) [] ⟨[], []⟩ hcov
    ⟨fbsInv_init 0, by simp, by simp⟩
  intro e
  constructor
  · intro he
    exact inv2.subF e he
  · intro heF
    rcases h2 e heF with ⟨pd, hpd, hall, heah⟩
    exact (inv2.mem e).2 ⟨pd, by simpa using mem_fbsPairs.2 ⟨hpd, hall⟩, by rw [heah]⟩

/-- Witness for `filter_by_stability_idempotent`: the first pass over `pdW`
keeps `[entA]`; the second pass over a hull listing exactly `[entA]` at
energy 0 returns the same collection. -/
theorem filter_by_stability_idempotent_witness :
    ((∀ pd ∈ [pdV], ∀ e ∈ pd.allEntries, e ∈ filterByStability [pdW] 0 false) ∧
        (∀ e ∈ filterByStability [pdW] 0 false,
          ∃ pd ∈ [pdV], e ∈ pd.allEntries ∧ pd.eah e = 0)) ∧
      ∀ e : Entry, e ∈ filterByStability [pdV] 0 false ↔
        e ∈ filterByStability [pdW] 0 false := by
  have h1 : ∀ pd ∈ [pdV], ∀ e ∈ pd.allEntries, e ∈ filterByStability [pdW] 0 false := by
    decide
  have h2 : ∀ e ∈ filterByStability [pdW] 0 false,
      ∃ pd ∈ [pdV], e ∈ pd.allEntries ∧ pd.eah e = 0 := by
    decide
  exact ⟨⟨h1, h2⟩, filter_by_stability_idempotent [pdW] [pdV] h1 h2⟩

/-! ## `get_subset_in_chemsys`, `get_min_entry_by_formula`, `initialize_entry` -/

/-- The `chemsys` property: the union of element symbols across member
entries. -/
def chemsysOf (entries : List Entry) : List String :=
  (entries.flatMap (fun e => e.comp.elements)).dedup

/-- Embeds `GibbsEntrySet.get_subset_in_chemsys`: raises `ValueError` when the
requested chemical system is not a subset of the collection's `chemsys`
(the Python message interpolates both sets; a fixed text stands in for it),
and otherwise keeps exactly the entries whose element symbols the request
covers (`chem_sys.issuperset(elements)`). -/
def getSubsetInChemsys (entries : List Entry) (chemsys : List String) :
    Except PyError (List Entry) :=
  if chemsys.all (fun el => el ∈ chemsysOf entries) then
    .ok (entries.filter (fun e => e.comp.elements.all (fun el => el ∈ chemsys)))
  else .error (.valueError "not a subset")

/-- C8 (confirmed).  For a requested chemsys contained in the collection's
chemsys, `get_subset_in_chemsys` returns exactly the entries whose element
sets the request covers; otherwise it raises the `ValueError` validation
error. -/
theorem subset_in_chemsys_spec (entries : List Entry) (cs : List String) :
    ((∀ el ∈ cs, el ∈ chemsysOf entries) →
        ∃ T, getSubsetInChemsys entries cs = .ok T ∧
          ∀ e, e ∈ T ↔ e ∈ entries ∧ ∀ el ∈ e.comp.elements, el ∈ cs) ∧
      (¬(∀ el ∈ cs, el ∈ chemsysOf entries) →
        getSubsetInChemsys entries cs = .error (.valueError "not a subset")) := by
  constructor
  · intro hsub
    have hb : (cs.all fun el => decide (el ∈ chemsysOf entries)) = true :=
      List.all_eq_true.2 fun el hel => by simpa using hsub el hel
    refine ⟨entries.filter (fun e => e.comp.elements.all (fun el => el ∈ cs)), ?_, ?_⟩
    · unfold getSubsetInChemsys
      rw [if_pos hb]
    · intro e
      constructor
      · intro he
        refine ⟨List.mem_of_mem_filter he, ?_⟩
        have h2 := List.of_mem_filter he
        intro el hel
        simpa using List.all_eq_true.1 h2 el hel
      · rintro ⟨h1, h2⟩
        exact List.mem_filter.2 ⟨h1, List.all_eq_true.2 fun el hel => by simpa using h2 el hel⟩
  · intro hnsub
    unfold getSubsetInChemsys
    rw [if_neg ?_]
    intro hb
    exact hnsub fun el hel => by simpa using List.all_eq_true.1 hb el hel

/-- Witness for `subset_in_chemsys_spec`: the `A-B` request is a subset of
`[entA]`'s chemsys and filters; the `Zz` request is not and raises. -/
theorem subset_in_chemsys_spec_witness :
    ((∀ el ∈ ["A", "B"], el ∈ chemsysOf [entA]) ∧
        ∃ T, getSubsetInChemsys [entA] ["A", "B"] = .ok T ∧
          ∀ e, e ∈ T ↔ e ∈ [entA] ∧ ∀ el ∈ e.comp.elements, el ∈ ["A", "B"]) ∧
      (¬(∀ el ∈ ["Zz"], el ∈ chemsysOf [entA]) ∧
        getSubsetInChemsys [entA] ["Zz"] = .error (.valueError "not a subset")) :=
  ⟨⟨by decide, (subset_in_chemsys_spec [entA] ["A", "B"]).1 (by decide)⟩,
    ⟨by decide, (subset_in_chemsys_spec [entA] ["Zz"]).2 (by decide)⟩⟩

/-- Embeds `GibbsEntrySet.get_min_entry_by_formula`: filter the entries whose
reduced composition matches the formula's, sort by energy per atom, take
element `[0]`.  On an empty match list, `sorted(...)[0]` raises `IndexError`
(not `KeyError`).  Python's `sorted` is stable, so `[0]` is the first entry
attaining the minimal energy per atom, modelled by a fold keeping the earlier
entry on ties. -/
def getMinEntryByFormula (entries : List Entry) (formula : Comp) :
    Except PyError Entry :=
  match entries.filter (fun e => e.comp.reduced = formula.reduced) with
  | [] => .error .indexError
  | e :: rest =>
      .ok (rest.foldl (fun best x =>
        if x.energyPerAtom < best.energyPerAtom then x else best) e)

/-- Embeds `initialize_entry` (`rxn_network/entries/utils.py`).  The
interpolation fallback `get_interpolated_entry` evaluates an external convex
hull; its value is irrelevant to the claims here, so it is supplied as
`interp`.  The `try/except KeyError` catches only `KeyError`; any other
exception propagates.  With `stabilize=True` the code would call the
non-existent method `get_stabilized_entry` (the class defines
`stabilize_entry`), an `AttributeError`. -/
def initializeEntry (interp : Comp → Entry) (formula : Comp) (entries : List Entry)
    (stabilize : Bool) : Except PyError Entry :=
  match getMinEntryByFormula entries formula with
  | .ok e =>
      if stabilize then .error (.attributeError "get_stabilized_entry") else .ok e
  | .error .keyError =>
      if stabilize then .error (.attributeError "get_stabilized_entry")
      else .ok (interp formula)
  | .error err => .error err

/-- C9 (code_bug evidence).  On a formula with no matching entry,
`get_min_entry_by_formula` fails with `IndexError` (`sorted(...)[0]` on an
empty list), which is not the `KeyError` that `initialize_entry`'s fallback
handles: the error propagates out of `initialize_entry` — whatever the
interpolation would return — instead of triggering `get_interpolated_entry`. -/
theorem min_entry_not_found_raises_index_error (interp : Comp → Entry) :
    getMinEntryByFormula [entA] cC = .error .indexError ∧
      initializeEntry interp cC [entA] false = .error .indexError ∧
      PyError.indexError ≠ PyError.keyError := by
  refine ⟨by decide, ?_, by decide⟩
  unfold initializeEntry
  rw [show getMinEntryByFormula [entA] cC = .error .indexError from by decide]

end RxnNetwork
